import Mathlib

/-!
Verification of the wego text-filtering service.

The repository's `src/main.go` wires an HTTP transport around a dictionary
engine living in the `dict` package (`dict.ExistInvalidWord`,
`dict.ReplaceInvalidWords`, `dict.Load`). Only `main.go` is available under
`src/`, so the `dict` engine is modelled here from the specification's
description of the Word Normalizer, Pattern Automaton and Scanner/Masker;
the service types, endpoints and logging middleware are embedded directly
from `src/main.go`. Texts are sequences of characters (`List Char`), since
the specification fixes character (not byte) units; the masking placeholder
is a parameter, as the specification leaves it configurable.
-/

namespace Wego

/-- A dictionary word: a normalized sequence of characters. -/
abbrev Word := List Char

/-- Modelled from the spec: the normalizer's case folding to a single
canonical case, applied to words at load time and to the scanned text so
matching is case-insensitive. The `dict` package implementing it is not
under `src/`. -/
def lowerText (t : List Char) : List Char := t.map Char.toLower

/-- The contiguous slice of `t` from offset `s` (inclusive) to offset `e`
(exclusive), in character units. -/
def sub (t : List Char) (s e : Nat) : List Char := (t.drop s).take (e - s)

/-- Modelled from the spec: the scanner reports a match ending at offset `e`
whenever some dictionary word equals the case-folded slice `[s, e)` of the
text. The Aho-Corasick traversal of the missing `dict` package finds exactly
the occurrences of dictionary words, so matches are modelled directly as
occurrences. -/
def matchesAt (W : List Word) (t : List Char) (s e : Nat) : Bool :=
  decide (s < e) && decide (e ≤ t.length) && decide (sub (lowerText t) s e ∈ W)

/-- Modelled from the spec: offset `i` of the text is covered by some match,
i.e. lies inside the span of some dictionary-word occurrence. The masker
replaces exactly the union of covered offsets. -/
def covered (W : List Word) (t : List Char) (i : Nat) : Bool :=
  (List.range (i + 1)).any fun s =>
    (List.range (t.length + 1)).any fun e => decide (i < e) && matchesAt W t s e

/-- Modelled from the spec: `dict.ReplaceInvalidWords` (the Scanner/Masker's
Filter), whose source is not under `src/`. Each covered character is
replaced by the placeholder `ph`, one placeholder per original character;
uncovered characters are copied verbatim. -/
def ReplaceInvalidWords (W : List Word) (ph : Char) (t : List Char) : List Char :=
  (List.range t.length).map fun i => if covered W t i then ph else t.getD i ph

/-- Modelled from the spec: `dict.ExistInvalidWord` (the scanner's existence
mode), whose source is not under `src/`. True iff some dictionary word
occurs somewhere in the text. -/
def ExistInvalidWord (W : List Word) (t : List Char) : Bool :=
  (List.range (t.length + 1)).any fun s =>
    (List.range (t.length + 1)).any fun e => matchesAt W t s e

/-- Modelled from the spec: the all-spans scan. Spans `(start, end)` are
produced in scan order: end offsets are visited left to right, and every
match ending at the current offset is recorded there. -/
def matchSpans (W : List Word) (t : List Char) : List (Nat × Nat) :=
  (List.range (t.length + 1)).flatMap fun e =>
    ((List.range e).filter fun s => matchesAt W t s e).map fun s => (s, e)

/-- Occurrence of a dictionary word in a text, stated the spec's way: some
nonempty word of `W` equals a case-folded slice of `t`. -/
def Occurs (W : List Word) (t : List Char) : Prop :=
  ∃ w ∈ W, w ≠ [] ∧ ∃ s, s + w.length ≤ t.length ∧ sub (lowerText t) s (s + w.length) = w

/-- Leading and trailing whitespace stripped from a line. -/
def trim (l : List Char) : List Char :=
  ((l.dropWhile Char.isWhitespace).reverse.dropWhile Char.isWhitespace).reverse

/-- Modelled from the spec: the Word Normalizer of the missing `dict`
package. Strips surrounding whitespace, rejects empty lines and lines whose
first non-whitespace character is the designated comment marker (the marker
is a parameter, as the spec leaves the source format open), and case-folds
the survivors. -/
def normalize (isComment : Char → Bool) (line : List Char) : Option Word :=
  match trim line with
  | [] => none
  | c :: cs => if isComment c then none else some (lowerText (c :: cs))

/-- Modelled from the spec: a trie node of the Pattern Automaton — a mapping
from character to child plus a terminal flag. Failure links are a traversal
device of the missing `dict` package and do not affect which words the trie
stores, so they are not part of the structural model. -/
inductive Trie where
  | node (children : Char → Option Trie) (terminal : Bool)

/-- The root-only trie: no children, not terminal. -/
def Trie.empty : Trie := .node (fun _ => none) false

/-- Modelled from the spec: inserting one word into the trie, marking the
final node terminal. -/
def Trie.insert : Trie → List Char → Trie
  | .node cs _, [] => .node cs true
  | .node cs term, c :: rest =>
    .node (fun d => if d = c then some (((cs c).getD Trie.empty).insert rest) else cs d) term

/-- Modelled from the spec: automaton construction inserts every word of the
set into a trie rooted at the empty node. -/
def build (ws : List Word) : Trie := ws.foldl Trie.insert Trie.empty

/-- The service interface of `src/main.go`: `Validate` and `Filter`. -/
structure TextService where
  Validate : List Char → Bool
  Filter : List Char → List Char

/-- The concrete `textService` of `src/main.go`: `Validate` returns
`dict.ExistInvalidWord(text) == false`, `Filter` returns
`dict.ReplaceInvalidWords(text)`. The dictionary and placeholder are
explicit parameters standing for the `dict` package's loaded state. -/
def textService (W : List Word) (ph : Char) : TextService where
  Validate text := ExistInvalidWord W text == false
  Filter text := ReplaceInvalidWords W ph text

/-- Request body of the /validate endpoint (`src/main.go`). -/
structure validateRequest where
  S : List Char

/-- Response body of the /validate endpoint: the `result` field. -/
structure validateResponse where
  V : Bool

/-- Request body of the /filter endpoint (`src/main.go`). -/
structure filterRequest where
  S : List Char

/-- Response body of the /filter endpoint: the `result` field. -/
structure filterResponse where
  V : List Char

/-- The endpoint built by `makeValidateEndpoint` in `src/main.go`: wraps
`svc.Validate` of the request's message, always with a nil error. -/
def makeValidateEndpoint (svc : TextService) : validateRequest → validateResponse × Option (List Char) :=
  fun req => ({ V := svc.Validate req.S }, none)

/-- The endpoint built by `makeFilterEndpoint` in `src/main.go`: wraps
`svc.Filter` of the request's message, always with a nil error. -/
def makeFilterEndpoint (svc : TextService) : filterRequest → filterResponse × Option (List Char) :=
  fun req => ({ V := svc.Filter req.S }, none)

/-- One logfmt entry as a key/value pair of character lists. -/
abbrev LogEntry := List Char × List Char

/-- `loggingTextServiceMiddleware.Validate` of `src/main.go`: delegates to
the wrapped service and logs method and text (the wall-clock duration of the
deferred log call is outside the embedding). -/
def loggingValidate (next : TextService) (text : List Char) : Bool × List LogEntry :=
  (next.Validate text,
    [(['m','e','t','h','o','d'], ['v','a','l','i','d','a','t','e']),
     (['t','e','x','t'], text)])

/-- `loggingTextServiceMiddleware.Filter` of `src/main.go`: computes the
wrapped service's result into the named return value `filtered`, which the
deferred log call reads, and returns it. -/
def loggingFilter (next : TextService) (text : List Char) : List Char × List LogEntry :=
  let filtered := next.Filter text
  (filtered,
    [(['m','e','t','h','o','d'], ['f','i','l','t','e','r']),
     (['t','e','x','t'], text),
     (['f','i','l','t','e','r','e','d'], filtered)])

/-- The `loggingTextServiceMiddleware` wrapper of `src/main.go`, viewed as a
TextService as `main` wires it (`svc = loggingTextServiceMiddleware{logger, svc}`). -/
def loggingTextServiceMiddleware (next : TextService) : TextService where
  Validate text := (loggingValidate next text).1
  Filter text := (loggingFilter next text).1

theorem length_lowerText (t : List Char) : (lowerText t).length = t.length :=
  List.length_map t Char.toLower

theorem getElem_lowerText (t : List Char) (i : Nat) (h1 : i < (lowerText t).length)
    (h2 : i < t.length) : (lowerText t)[i] = Char.toLower t[i] :=
  List.getElem_map Char.toLower

theorem length_sub {t : List Char} {s e : Nat} (het : e ≤ t.length) :
    (sub t s e).length = e - s := by
  simp only [sub, List.length_take, List.length_drop]
  omega

theorem getElem_sub {t : List Char} {s e k : Nat} (h : k < (sub t s e).length)
    (h2 : s + k < t.length) : (sub t s e)[k] = t[s + k] := by
  simp only [sub]
  rw [List.getElem_take, List.getElem_drop]

theorem mem_sub {t : List Char} {s e j : Nat} (hsj : s ≤ j) (hje : j < e) (het : e ≤ t.length)
    (hj : j < t.length) : t[j] ∈ sub t s e := by
  have hlen : (sub t s e).length = e - s := length_sub het
  have hk : j - s < (sub t s e).length := by omega
  have heq : (sub t s e)[j - s] = t[j] := by
    have hsk : s + (j - s) < t.length := by omega
    rw [getElem_sub hk hsk]
    congr 1
    omega
  exact heq ▸ List.getElem_mem hk

theorem matchesAt_iff {W : List Word} {t : List Char} {s e : Nat} :
    matchesAt W t s e = true ↔ s < e ∧ e ≤ t.length ∧ sub (lowerText t) s e ∈ W := by
  simp [matchesAt, and_assoc]

theorem covered_iff {W : List Word} {t : List Char} {i : Nat} :
    covered W t i = true ↔ ∃ s e, s ≤ i ∧ i < e ∧ matchesAt W t s e = true := by
  simp only [covered, List.any_eq_true, List.mem_range, Bool.and_eq_true, decide_eq_true_eq]
  constructor
  · rintro ⟨s, hs, e, _, hie, hm⟩
    exact ⟨s, e, by omega, hie, hm⟩
  · rintro ⟨s, e, hsi, hie, hm⟩
    obtain ⟨_, he, _⟩ := matchesAt_iff.mp hm
    exact ⟨s, by omega, e, by omega, hie, hm⟩

theorem ExistInvalidWord_iff {W : List Word} {t : List Char} :
    ExistInvalidWord W t = true ↔ ∃ s e, matchesAt W t s e = true := by
  simp only [ExistInvalidWord, List.any_eq_true, List.mem_range]
  constructor
  · rintro ⟨s, _, e, _, hm⟩
    exact ⟨s, e, hm⟩
  · rintro ⟨s, e, hm⟩
    obtain ⟨hse, he, _⟩ := matchesAt_iff.mp hm
    exact ⟨s, by omega, e, by omega, hm⟩

theorem ExistInvalidWord_iff_covered {W : List Word} {t : List Char} :
    ExistInvalidWord W t = true ↔ ∃ i, covered W t i = true := by
  rw [ExistInvalidWord_iff]
  constructor
  · rintro ⟨s, e, hm⟩
    obtain ⟨hse, _, _⟩ := matchesAt_iff.mp hm
    exact ⟨s, covered_iff.mpr ⟨s, e, le_refl s, hse, hm⟩⟩
  · rintro ⟨i, hc⟩
    obtain ⟨s, e, _, _, hm⟩ := covered_iff.mp hc
    exact ⟨s, e, hm⟩

theorem length_ReplaceInvalidWords (W : List Word) (ph : Char) (t : List Char) :
    (ReplaceInvalidWords W ph t).length = t.length := by
  simp [ReplaceInvalidWords]

theorem getElem_ReplaceInvalidWords (W : List Word) (ph : Char) (t : List Char) (i : Nat)
    (h : i < (ReplaceInvalidWords W ph t).length) (h2 : i < t.length) :
    (ReplaceInvalidWords W ph t)[i] = if covered W t i then ph else t[i] := by
  simp only [ReplaceInvalidWords, List.getElem_map, List.getElem_range]
  rw [List.getD_eq_getElem t ph h2]

theorem ReplaceInvalidWords_eq_self {W : List Word} {ph : Char} {t : List Char}
    (h : ExistInvalidWord W t = false) : ReplaceInvalidWords W ph t = t := by
  apply List.ext_getElem (length_ReplaceInvalidWords W ph t)
  intro i h1 h2
  rw [getElem_ReplaceInvalidWords W ph t i h1 h2]
  have hc : covered W t i = false := by
    rcases hcov : covered W t i with _ | _
    · rfl
    · exact absurd (ExistInvalidWord_iff_covered.mpr ⟨i, hcov⟩) (by simp [h])
  simp [hc]

theorem matchesAt_ReplaceInvalidWords {W : List Word} {ph : Char} {t : List Char}
    (hph : ∀ w ∈ W, Char.toLower ph ∉ w) (s e : Nat) :
    matchesAt W (ReplaceInvalidWords W ph t) s e = false := by
  rcases hm : matchesAt W (ReplaceInvalidWords W ph t) s e with _ | _
  · rfl
  exfalso
  obtain ⟨hse, he, hw⟩ := matchesAt_iff.mp hm
  rw [length_ReplaceInvalidWords] at he
  have hel1 : e ≤ (lowerText (ReplaceInvalidWords W ph t)).length := by
    rw [length_lowerText, length_ReplaceInvalidWords]
    exact he
  have hel2 : e ≤ (lowerText t).length := by
    rw [length_lowerText]
    exact he
  have hA : ∀ j, s ≤ j → j < e → covered W t j = false := by
    intro j hsj hje
    rcases hcov : covered W t j with _ | _
    · rfl
    exfalso
    have hj : j < t.length := by omega
    have hj1 : j < (lowerText (ReplaceInvalidWords W ph t)).length := by
      rw [length_lowerText, length_ReplaceInvalidWords]
      omega
    have hj2 : j < (ReplaceInvalidWords W ph t).length := by
      rw [length_ReplaceInvalidWords]
      omega
    have hmem : (lowerText (ReplaceInvalidWords W ph t))[j]
        ∈ sub (lowerText (ReplaceInvalidWords W ph t)) s e := mem_sub hsj hje hel1 hj1
    have hval : (lowerText (ReplaceInvalidWords W ph t))[j] = Char.toLower ph := by
      rw [getElem_lowerText (ReplaceInvalidWords W ph t) j hj1 hj2,
        getElem_ReplaceInvalidWords W ph t j hj2 hj]
      simp [hcov]
    exact hph _ hw (hval ▸ hmem)
  have hB : sub (lowerText (ReplaceInvalidWords W ph t)) s e = sub (lowerText t) s e := by
    apply List.ext_getElem
    · rw [length_sub hel1, length_sub hel2]
    · intro k h1 h2
      have hk : k < e - s := by
        rw [length_sub hel1] at h1
        exact h1
      have hsk : s + k < t.length := by omega
      have hsk1 : s + k < (lowerText (ReplaceInvalidWords W ph t)).length := by
        rw [length_lowerText, length_ReplaceInvalidWords]
        omega
      have hsk2 : s + k < (lowerText t).length := by
        rw [length_lowerText]
        omega
      have hskr : s + k < (ReplaceInvalidWords W ph t).length := by
        rw [length_ReplaceInvalidWords]
        omega
      rw [getElem_sub h1 hsk1, getElem_sub h2 hsk2,
        getElem_lowerText (ReplaceInvalidWords W ph t) (s + k) hsk1 hskr,
        getElem_lowerText t (s + k) hsk2 hsk]
      have hcov : covered W t (s + k) = false := hA (s + k) (by omega) (by omega)
      congr 1
      rw [getElem_ReplaceInvalidWords W ph t (s + k) hskr hsk]
      simp [hcov]
  have hmt : matchesAt W t s e = true := matchesAt_iff.mpr ⟨hse, he, hB ▸ hw⟩
  have hcs : covered W t s = true := covered_iff.mpr ⟨s, e, le_refl s, hse, hmt⟩
  have hcs' : covered W t s = false := hA s (le_refl s) hse
  rw [hcs] at hcs'
  cases hcs'

theorem ExistInvalidWord_ReplaceInvalidWords {W : List Word} {ph : Char} {t : List Char}
    (hph : ∀ w ∈ W, Char.toLower ph ∉ w) :
    ExistInvalidWord W (ReplaceInvalidWords W ph t) = false := by
  rcases h : ExistInvalidWord W (ReplaceInvalidWords W ph t) with _ | _
  · rfl
  exfalso
  obtain ⟨s, e, hm⟩ := ExistInvalidWord_iff.mp h
  rw [matchesAt_ReplaceInvalidWords hph] at hm
  cases hm

theorem ExistInvalidWord_eq_false_of_chars {W : List Word} {t : List Char}
    (h : ∀ c ∈ t, ∀ w ∈ W, Char.toLower c ∉ w) : ExistInvalidWord W t = false := by
  rcases he : ExistInvalidWord W t with _ | _
  · rfl
  exfalso
  obtain ⟨s, e, hm⟩ := ExistInvalidWord_iff.mp he
  obtain ⟨hse, het, hw⟩ := matchesAt_iff.mp hm
  have hsl : s < t.length := by omega
  have hsl2 : s < (lowerText t).length := by
    rw [length_lowerText]
    omega
  have hmem : (lowerText t)[s] ∈ sub (lowerText t) s e :=
    mem_sub (le_refl s) hse (by rw [length_lowerText]; exact het) hsl2
  have hval : (lowerText t)[s] = Char.toLower t[s] := getElem_lowerText t s hsl2 hsl
  exact h (t[s]) (List.getElem_mem hsl) _ hw (hval ▸ hmem)

theorem pairwise_snd_flatMap {f : Nat → List (Nat × Nat)} : ∀ {l : List Nat},
    l.Pairwise (· ≤ ·) → (∀ e p, p ∈ f e → p.2 = e) →
    (l.flatMap f).Pairwise (fun a b => a.2 ≤ b.2) := by
  intro l
  induction l with
  | nil =>
    intro _ _
    simp
  | cons e l ih =>
    intro hl hf
    rw [List.flatMap_cons, List.pairwise_append]
    refine ⟨?_, ih hl.of_cons hf, ?_⟩
    · apply List.pairwise_of_forall_mem_list
      intro a ha b hb
      rw [hf e a ha, hf e b hb]
    · intro a ha b hb
      rw [hf e a ha]
      obtain ⟨e', he', hbe⟩ := List.mem_flatMap.mp hb
      rw [hf e' b hbe]
      exact (List.pairwise_cons.mp hl).1 e' he'

/-- C1 (counterexample): the claim "Exists(T) is true iff Filter(T) differs
from T" fails as stated: with dictionary {"**"} and text "**", a dictionary
word occurs (Exists is true) yet every covered character already equals the
placeholder, so Filter returns the text unchanged. -/
theorem exists_true_filter_unchanged_cex :
    ExistInvalidWord [['*','*']] ['*','*'] = true ∧
    ReplaceInvalidWords [['*','*']] '*' ['*','*'] = ['*','*'] := by decide

/-- C1 (amended): provided no dictionary word contains the (case-folded)
placeholder character, Exists(T) is true iff Filter(T) differs from T; and
unconditionally Exists(T) is true iff some nonempty dictionary word occurs
(case-insensitively) in T. -/
theorem exists_iff_filter_ne (W : List Word) (ph : Char) (t : List Char)
    (hph : ∀ w ∈ W, Char.toLower ph ∉ w) :
    (ExistInvalidWord W t = true ↔ ReplaceInvalidWords W ph t ≠ t) ∧
    (ExistInvalidWord W t = true ↔ Occurs W t) := by
  constructor
  · constructor
    · intro hex heq
      obtain ⟨s, e, hm⟩ := ExistInvalidWord_iff.mp hex
      obtain ⟨hse, het, hw⟩ := matchesAt_iff.mp hm
      have hsl : s < t.length := by omega
      have hslr : s < (ReplaceInvalidWords W ph t).length := by
        rw [length_ReplaceInvalidWords]
        omega
      have hsl2 : s < (lowerText t).length := by
        rw [length_lowerText]
        omega
      have hcov : covered W t s = true := covered_iff.mpr ⟨s, e, le_refl s, hse, hm⟩
      have h1 : (ReplaceInvalidWords W ph t)[s] = ph := by
        rw [getElem_ReplaceInvalidWords W ph t s hslr hsl]
        simp [hcov]
      have h2 : t[s] = ph := by
        have h3 := List.getElem_of_eq heq hslr
        rw [← h3]
        exact h1
      have hmem : (lowerText t)[s] ∈ sub (lowerText t) s e :=
        mem_sub (le_refl s) hse (by rw [length_lowerText]; exact het) hsl2
      have hval : (lowerText t)[s] = Char.toLower ph := by
        rw [getElem_lowerText t s hsl2 hsl, h2]
      exact hph _ hw (hval ▸ hmem)
    · intro hne
      rcases hex : ExistInvalidWord W t with _ | _
      · exact absurd (ReplaceInvalidWords_eq_self hex) hne
      · rfl
  · constructor
    · intro hex
      obtain ⟨s, e, hm⟩ := ExistInvalidWord_iff.mp hex
      obtain ⟨hse, het, hw⟩ := matchesAt_iff.mp hm
      have hlen : (sub (lowerText t) s e).length = e - s :=
        length_sub (by rw [length_lowerText]; exact het)
      refine ⟨sub (lowerText t) s e, hw, ?_, s, ?_, ?_⟩
      · intro hnil
        rw [hnil] at hlen
        simp at hlen
        omega
      · rw [hlen]
        omega
      · rw [hlen]
        congr 1
        omega
    · rintro ⟨w, hwW, hwne, s, hslen, hsub⟩
      apply ExistInvalidWord_iff.mpr
      refine ⟨s, s + w.length, matchesAt_iff.mpr ⟨?_, hslen, ?_⟩⟩
      · have : 0 < w.length := List.length_pos.mpr hwne
        omega
      · rw [hsub]
        exact hwW

/-- Witness for the amended C1 at a concrete dictionary, placeholder and text. -/
theorem exists_iff_filter_ne_witness :
    (∀ w ∈ [(['b','a','d'] : Word)], Char.toLower '*' ∉ w) ∧
    ((ExistInvalidWord [['b','a','d']] ['B','a','d'] = true ↔
        ReplaceInvalidWords [['b','a','d']] '*' ['B','a','d'] ≠ ['B','a','d']) ∧
      (ExistInvalidWord [['b','a','d']] ['B','a','d'] = true ↔
        Occurs [['b','a','d']] ['B','a','d'])) :=
  ⟨by decide, exists_iff_filter_ne [['b','a','d']] '*' ['B','a','d'] (by decide)⟩

/-- C2: Filter preserves the character count: the masked text has exactly as
many characters as the input, one placeholder per covered character. -/
theorem filter_length_eq (W : List Word) (ph : Char) (t : List Char) :
    (ReplaceInvalidWords W ph t).length = t.length :=
  length_ReplaceInvalidWords W ph t

/-- C3 (counterexample): idempotence fails under the claim's precondition
that the placeholder alone is not a dictionary word: with dictionary
{"x","*b"} (which does not contain "*") and text "axb", the first Filter
yields "a*b" and the second yields "a**". -/
theorem filter_not_idempotent_cex :
    ((['*'] : Word) ∉ [(['x'] : Word), ['*','b']]) ∧
    ReplaceInvalidWords [['x'],['*','b']] '*'
        (ReplaceInvalidWords [['x'],['*','b']] '*' ['a','x','b'])
      ≠ ReplaceInvalidWords [['x'],['*','b']] '*' ['a','x','b'] := by decide

/-- C3 (amended): Filter is idempotent under the stronger precondition that
no dictionary word contains the (case-folded) placeholder character, so
masked placeholders can never re-trigger a match. -/
theorem filter_idempotent (W : List Word) (ph : Char) (t : List Char)
    (hph : ∀ w ∈ W, Char.toLower ph ∉ w) :
    ReplaceInvalidWords W ph (ReplaceInvalidWords W ph t) = ReplaceInvalidWords W ph t :=
  ReplaceInvalidWords_eq_self (ExistInvalidWord_ReplaceInvalidWords hph)

/-- Witness for the amended C3 at a concrete dictionary, placeholder and text. -/
theorem filter_idempotent_witness :
    (∀ w ∈ [(['b','a','d'] : Word)], Char.toLower '*' ∉ w) ∧
    ReplaceInvalidWords [['b','a','d']] '*'
        (ReplaceInvalidWords [['b','a','d']] '*' ['a','B','a','d','b'])
      = ReplaceInvalidWords [['b','a','d']] '*' ['a','B','a','d','b'] :=
  ⟨by decide, filter_idempotent [['b','a','d']] '*' ['a','B','a','d','b'] (by decide)⟩

/-- C4: with an empty dictionary, Exists is false and Filter is the identity
on every text, and building from the empty word set yields the root-only
trie: no children and no terminal marker. -/
theorem empty_dictionary_behavior (t : List Char) (ph : Char) :
    ExistInvalidWord [] t = false ∧ ReplaceInvalidWords [] ph t = t ∧
    build [] = Trie.node (fun _ => none) false := by
  have hex : ExistInvalidWord ([] : List Word) t = false := by
    rcases h : ExistInvalidWord [] t with _ | _
    · rfl
    exfalso
    obtain ⟨s, e, hm⟩ := ExistInvalidWord_iff.mp h
    obtain ⟨_, _, hw⟩ := matchesAt_iff.mp hm
    exact absurd hw (List.not_mem_nil _)
  exact ⟨hex, ReplaceInvalidWords_eq_self hex, rfl⟩

/-- C5: Exists and Filter are total Lean functions; on the empty string they
return false and the empty string, and on any text none of whose characters
(case-folded) appears in any dictionary word they return false and the text
unchanged. -/
theorem exists_filter_total (W : List Word) (ph : Char) (t : List Char) :
    (ExistInvalidWord W [] = false ∧ ReplaceInvalidWords W ph [] = []) ∧
    ((∀ c ∈ t, ∀ w ∈ W, Char.toLower c ∉ w) →
      ExistInvalidWord W t = false ∧ ReplaceInvalidWords W ph t = t) := by
  constructor
  · have hex : ExistInvalidWord W [] = false := by
      apply ExistInvalidWord_eq_false_of_chars
      intro c hc
      exact absurd hc (List.not_mem_nil c)
    exact ⟨hex, ReplaceInvalidWords_eq_self hex⟩
  · intro h
    have hex := ExistInvalidWord_eq_false_of_chars h
    exact ⟨hex, ReplaceInvalidWords_eq_self hex⟩

/-- Witness for C5 at a concrete dictionary, placeholder and text. -/
theorem exists_filter_total_witness :
    (∀ c ∈ (['x','y'] : List Char), ∀ w ∈ [(['b','a','d'] : Word)], Char.toLower c ∉ w) ∧
    (ExistInvalidWord [['b','a','d']] ['x','y'] = false ∧
      ReplaceInvalidWords [['b','a','d']] '*' ['x','y'] = ['x','y']) :=
  ⟨by decide, (exists_filter_total [['b','a','d']] '*' ['x','y']).2 (by decide)⟩

/-- C6: matching is case-insensitive: if the (normalized, lower-case) word
"bad" is in the dictionary then both "BAD" and "Bad" are detected; and the
normalizer case-folds every accepted line to the lower-case form of its
trimmed content. -/
theorem case_insensitive_matching (W : List Word) (h : ['b','a','d'] ∈ W) :
    ExistInvalidWord W ['B','A','D'] = true ∧
    ExistInvalidWord W ['B','a','d'] = true ∧
    ∀ (mk : Char → Bool) (line w : List Char),
      normalize mk line = some w → w = lowerText (trim line) := by
  refine ⟨?_, ?_, ?_⟩
  · apply ExistInvalidWord_iff.mpr
    refine ⟨0, 3, matchesAt_iff.mpr ⟨by omega, by decide, ?_⟩⟩
    have hs : sub (lowerText ['B','A','D']) 0 3 = ['b','a','d'] := by decide
    rw [hs]
    exact h
  · apply ExistInvalidWord_iff.mpr
    refine ⟨0, 3, matchesAt_iff.mpr ⟨by omega, by decide, ?_⟩⟩
    have hs : sub (lowerText ['B','a','d']) 0 3 = ['b','a','d'] := by decide
    rw [hs]
    exact h
  · intro mk line w hnorm
    unfold normalize at hnorm
    cases htrim : trim line with
    | nil =>
      rw [htrim] at hnorm
      simp at hnorm
    | cons c cs =>
      rw [htrim] at hnorm
      rcases hmk : mk c with _ | _
      · simp [hmk] at hnorm
        exact hnorm.symm
      · simp [hmk] at hnorm

/-- Witness for C6 at the concrete one-word dictionary containing "bad". -/
theorem case_insensitive_matching_witness :
    ((['b','a','d'] : Word) ∈ [(['b','a','d'] : Word)]) ∧
    ExistInvalidWord [['b','a','d']] ['B','A','D'] = true ∧
    ExistInvalidWord [['b','a','d']] ['B','a','d'] = true :=
  ⟨by decide, (case_insensitive_matching [['b','a','d']] (by decide)).1,
    (case_insensitive_matching [['b','a','d']] (by decide)).2.1⟩

/-- C7: for dictionary {"ab","abc"} and text "xabcx" both overlapping
matches are reported, and Filter masks exactly offsets 1 to 3, each exactly
once, yielding "x***x". -/
theorem overlap_handling :
    matchSpans [['a','b'],['a','b','c']] ['x','a','b','c','x'] = [(1,3),(1,4)] ∧
    ReplaceInvalidWords [['a','b'],['a','b','c']] '*' ['x','a','b','c','x']
      = ['x','*','*','*','x'] ∧
    covered [['a','b'],['a','b','c']] ['x','a','b','c','x'] 0 = false ∧
    covered [['a','b'],['a','b','c']] ['x','a','b','c','x'] 1 = true ∧
    covered [['a','b'],['a','b','c']] ['x','a','b','c','x'] 2 = true ∧
    covered [['a','b'],['a','b','c']] ['x','a','b','c','x'] 3 = true ∧
    covered [['a','b'],['a','b','c']] ['x','a','b','c','x'] 4 = false := by decide

/-- C8 (counterexample): scan-order spans are not monotonically
non-decreasing in start offset: with dictionary {"b","abc"} and text "abc"
the scan produces the span for "b" (start 1) before the span for "abc"
(start 0). -/
theorem spans_start_monotone_cex :
    ¬ (matchSpans [['b'],['a','b','c']] ['a','b','c']).Pairwise
        (fun a b => a.1 ≤ b.1) := by
  have h : matchSpans [['b'],['a','b','c']] ['a','b','c'] = [(1,2),(0,3)] := by decide
  rw [h]
  intro hp
  have h10 := (List.pairwise_cons.mp hp).1 (0,3) (by simp)
  simp at h10

/-- C8 (amended): in scan order the MatchSpans are monotonically
non-decreasing in end offset (not start offset). -/
theorem spans_end_monotone (W : List Word) (t : List Char) :
    (matchSpans W t).Pairwise (fun a b => a.2 ≤ b.2) := by
  unfold matchSpans
  apply pairwise_snd_flatMap
  · exact (List.pairwise_lt_range _).imp fun h => Nat.le_of_lt h
  · intro e p hp
    obtain ⟨s, hs, hps⟩ := List.mem_map.mp hp
    rw [← hps]

/-- C9: the /validate endpoint's result is the negation of the existence
check: it is true iff `dict.ExistInvalidWord` is false on the message, and
the endpoint never returns an error. -/
theorem validate_endpoint_negates_exists (W : List Word) (ph : Char) (t : List Char) :
    ((makeValidateEndpoint (textService W ph) ⟨t⟩).1.V = true ↔
      ExistInvalidWord W t = false) ∧
    (makeValidateEndpoint (textService W ph) ⟨t⟩).2 = none := by
  constructor
  · show (ExistInvalidWord W t == false) = true ↔ ExistInvalidWord W t = false
    simp
  · rfl

/-- C10: wrapping a TextService in the logging middleware never changes
results: both middleware methods return exactly the wrapped service's value,
and the logged filtered value is that same result. -/
theorem logging_middleware_preserves_results (svc : TextService) (t : List Char) :
    (loggingTextServiceMiddleware svc).Validate t = svc.Validate t ∧
    (loggingTextServiceMiddleware svc).Filter t = svc.Filter t ∧
    (loggingValidate svc t).1 = svc.Validate t ∧
    (loggingFilter svc t).1 = svc.Filter t :=
  ⟨rfl, rfl, rfl, rfl⟩

end Wego
